import Mathlib

/-!
Shallow embedding of the Stig number-placement game core:
the rule/scoring engine and the board model (src/utils/gameLogic.ts,
src/unnamed/part_000), the search opponent (the AI half of
src/utils/gameLogic.ts), and the online synchronization layer in its two
in-repo evolutions (src/utils/online.ts and src/unnamed/part_007).

JavaScript numbers are embedded as Nat (cell values, ids) or Int (scores,
timestamps); the sentinel values Infinity and negative Infinity that the
search code uses for alpha-beta bounds are embedded by the dedicated type
JNum.  Fallible code returns Option or Except.
-/

namespace Stig

/-- Cell roles from types.ts: `type: 'p1' | 'p2' | 'key' | 'master'`. -/
inductive CellType where
  | p1
  | p2
  | key
  | master
deriving DecidableEq, Repr

/-- `CellData` from types.ts: id 0-9, optional value, role, optional row. -/
structure CellData where
  id : Nat
  value : Option Nat
  type : CellType
  row : Option Nat
deriving DecidableEq, Repr

/-- `isEven` from gameLogic.ts: `n % 2 === 0`. -/
def isEven (n : Nat) : Bool := n % 2 == 0

/-- `Player` from types.ts. -/
inductive Player where
  | p1
  | p2
deriving DecidableEq, Repr

/-- Row or game winner: `Player | 'tie'`. -/
inductive Winner where
  | p1
  | p2
  | tie
deriving DecidableEq, Repr

/-- Row rule tag from types.ts (`reason: 'low' | 'high'`). -/
inductive Reason where
  | low
  | high
deriving DecidableEq, Repr

/-- `RowResult` from types.ts. -/
structure RowResult where
  rowId : Nat
  winner : Winner
  reason : Reason
  p1Value : Nat
  p2Value : Nat
  keyValue : Nat
  masterValue : Nat
  masterMatchesKey : Bool
deriving DecidableEq, Repr

/-- `GameResult` from types.ts. -/
structure GameResult where
  rowResults : List RowResult
  p1Score : Nat
  p2Score : Nat
  overallWinner : Winner
deriving DecidableEq, Repr

/-- `INITIAL_CELLS` from constants: the fixed 3 rows of (p1, p2, key)
cells plus the single master cell at id 9. -/
def INITIAL_CELLS : List CellData :=
  [ ⟨0, none, .p1, some 0⟩, ⟨1, none, .p2, some 0⟩, ⟨2, none, .key, some 0⟩,
    ⟨3, none, .p1, some 1⟩, ⟨4, none, .p2, some 1⟩, ⟨5, none, .key, some 1⟩,
    ⟨6, none, .p1, some 2⟩, ⟨7, none, .p2, some 2⟩, ⟨8, none, .key, some 2⟩,
    ⟨9, none, .master, none⟩ ]

/-- A standard-layout board holding the (optional) value `v i` in cell `i`. -/
def partialBoard (v : Nat → Option Nat) : List CellData :=
  INITIAL_CELLS.map (fun c => { c with value := v c.id })

/-- A standard-layout board with every cell filled: cell `i` holds `v i`. -/
def fullBoard (v : Nat → Nat) : List CellData :=
  INITIAL_CELLS.map (fun c => { c with value := some (v c.id) })

/-- The values of the four cells relevant to row `r` of `cells`:
p1 slot, p2 slot, row key (in row `r`), and the master key.  Each lookup
merges cell-not-found with value-null, matching the guards in
gameLogic.ts (`!p1Cell || p1Cell.value === null` and the optional-chained
variants). -/
def rowLookup (cells : List CellData) (r : Nat) :
    Option Nat × Option Nat × Option Nat :=
  ((cells.find? (fun c => c.row == some r && c.type == CellType.p1)).bind CellData.value,
   (cells.find? (fun c => c.row == some r && c.type == CellType.p2)).bind CellData.value,
   (cells.find? (fun c => c.row == some r && c.type == CellType.key)).bind CellData.value)

/-- Master key cell value (`cells.find(c => c.type === 'master')?.value`). -/
def masterValue (cells : List CellData) : Option Nat :=
  (cells.find? (fun c => c.type == CellType.master)).bind CellData.value

/-- The per-row (p1Score, p2Score) increments of `evaluatePartialBoard`
(gameLogic.ts lines 19-40): a row contributes only when all of p1 slot,
p2 slot, key and master are filled; low wins on parity match, high wins
otherwise. -/
def rowInc (cells : List CellData) (masterIsEven : Option Bool) (r : Nat) :
    Int × Int :=
  match rowLookup cells r, masterIsEven with
  | (some a, some b, some k), some mE =>
    let keyIsEven := isEven k
    let masterMatchesKey := mE == keyIsEven
    if masterMatchesKey then
      -- low wins
      if a < b then (1, 0) else if b < a then (0, 1) else (0, 0)
    else
      -- high wins
      if a > b then (1, 0) else if b > a then (0, 1) else (0, 0)
  | _, _ => (0, 0)

/-- `evaluatePartialBoard` from gameLogic.ts: P2 minus P1 score over the
rows that are fully determinable right now. -/
def evaluatePartialBoard (cells : List CellData) : Int :=
  let masterIsEven : Option Bool := (masterValue cells).map isEven
  let final := [0, 1, 2].foldl
    (fun (s : Int × Int) r =>
      let i := rowInc cells masterIsEven r
      (s.1 + i.1, s.2 + i.2))
    (0, 0)
  final.2 - final.1

/-- One loop iteration of `calculateResults` (gameLogic.ts lines 59-101):
rows whose p1/p2/key cell is missing or unfilled are skipped
(`continue`); otherwise the parity rule decides the row winner and the
scores and `rowResults` are extended. -/
def calcRow (cells : List CellData) (masterVal : Nat)
    (acc : List RowResult × Nat × Nat) (r : Nat) :
    List RowResult × Nat × Nat :=
  match rowLookup cells r with
  | (some p1V, some p2V, some keyV) =>
    let masterIsEven := isEven masterVal
    let keyIsEven := isEven keyV
    let masterMatchesKey := masterIsEven == keyIsEven
    let reason : Reason := if masterMatchesKey then .low else .high
    let winner : Winner :=
      if masterMatchesKey then
        if p1V < p2V then .p1 else if p2V < p1V then .p2 else .tie
      else
        if p1V > p2V then .p1 else if p2V > p1V then .p2 else .tie
    let p1Score := if winner = .p1 then acc.2.1 + 1 else acc.2.1
    let p2Score := if winner = .p2 then acc.2.2 + 1 else acc.2.2
    (acc.1 ++ [⟨r, winner, reason, p1V, p2V, keyV, masterVal, masterMatchesKey⟩],
     p1Score, p2Score)
  | _ => acc

/-- `calculateResults` from gameLogic.ts: throws (`.error`) exactly when
the master cell is missing or unfilled; otherwise folds `calcRow` over
rows 0, 1, 2 and derives the overall winner from the score comparison. -/
def calculateResults (cells : List CellData) : Except String GameResult :=
  match masterValue cells with
  | none => .error "Master key missing"
  | some masterVal =>
    let acc := [0, 1, 2].foldl (calcRow cells masterVal) ([], 0, 0)
    let p1Score := acc.2.1
    let p2Score := acc.2.2
    let overallWinner : Winner :=
      if p1Score > p2Score then .p1
      else if p2Score > p1Score then .p2
      else .tie
    .ok ⟨acc.1, p1Score, p2Score, overallWinner⟩

/-- `getAvailableNumbers` from gameLogic.ts: the numbers 1..10 not used
by any cell. -/
def getAvailableNumbers (cells : List CellData) : List Nat :=
  let used := cells.filterMap CellData.value
  ((List.range 10).map (· + 1)).filter (fun n => !used.contains n)

/-- The shared placement step, `cells.map(c => c.id === cellId ?
{ ...c, value: numberVal } : c)`, used verbatim by the local
`handlePlaceNumber`, the AI simulation steps, and both `placeMove`
transforms. -/
def placeNumber (cells : List CellData) (cellId numberVal : Nat) :
    List CellData :=
  cells.map (fun c =>
    if c.id == cellId then { c with value := some numberVal } else c)

/-! ## Search opponent (utils/ai.ts half of the gameLogic sources) -/

/-- A move proposal `{ cellId, number }`. -/
structure Move where
  cellId : Nat
  number : Nat
deriving DecidableEq, Repr

/-- `Difficulty` from types.ts. -/
inductive Difficulty where
  | easy
  | medium
  | hard
deriving DecidableEq, Repr

/-- JavaScript numbers as the AI uses them: integers plus the two
infinities that seed the alpha-beta bounds and best-score accumulators. -/
inductive JNum where
  | negInf
  | fin (z : Int)
  | posInf
deriving DecidableEq, Repr

/-- `a <= b` on JNum, the JS comparison restricted to the values the AI
produces. -/
def JNum.le : JNum → JNum → Bool
  | .negInf, _ => true
  | _, .posInf => true
  | .fin a, .fin b => a ≤ b
  | .posInf, _ => false
  | .fin _, .negInf => false

/-- `a < b` on JNum. -/
def JNum.lt (a b : JNum) : Bool := !(JNum.le b a)

/-- `Math.max` on JNum. -/
def JNum.max (a b : JNum) : JNum := if JNum.le a b then b else a

/-- `Math.min` on JNum. -/
def JNum.min (a b : JNum) : JNum := if JNum.le b a then b else a

/-- `Math.floor(q * len)` for a `Math.random()` output `q`. -/
def randIndex (q : ℚ) (len : Nat) : Nat := (⌊q * len⌋).toNat

/-- Out-of-range list access fallback (never reached for an in-range
random source). -/
def defaultCell : CellData := ⟨0, none, .p1, none⟩

/-- A random source: the successive outputs of `Math.random()`, each
expected in `[0, 1)`. -/
def RngWF (rng : Nat → ℚ) : Prop := ∀ k, 0 ≤ rng k ∧ rng k < 1

/-- `getRandomMove` from the AI module: a uniformly random unused number
(random call `k`) in a uniformly random empty cell (random call `k+1`). -/
def getRandomMove (emptyCells : List CellData) (availableNums : List Nat)
    (rng : Nat → ℚ) (k : Nat) : Move :=
  let randomNumIndex := randIndex (rng k) availableNums.length
  let randomCellIndex := randIndex (rng (k + 1)) emptyCells.length
  ⟨(emptyCells.getD randomCellIndex defaultCell).id,
   availableNums.getD randomNumIndex 0⟩

/-- One (cell, number) probe of `findBestGreedyMove`: simulate the
placement and keep it when it strictly beats the best score so far
(which starts at negative infinity). -/
def greedyStep (currentCells : List CellData) (acc : JNum × Option Move)
    (cell : CellData) (num : Nat) : JNum × Option Move :=
  let newCells := placeNumber currentCells cell.id num
  let score := evaluatePartialBoard newCells
  if acc.1.lt (.fin score) then (.fin score, some ⟨cell.id, num⟩) else acc

/-- `findBestGreedyMove` from the AI module: one-step lookahead over
every (empty cell, unused number) pair. -/
def findBestGreedyMove (currentCells emptyCells : List CellData)
    (availableNums : List Nat) : Option Move :=
  (emptyCells.foldl
    (fun acc cell =>
      availableNums.foldl (fun acc num => greedyStep currentCells acc cell num) acc)
    (JNum.negInf, none)).2

/-- `heuristicEvaluation` from the AI module: the partial score times 10
plus a potential term the shipped code always leaves at 0 (its row loop
has an empty body). -/
def heuristicEvaluation (cells : List CellData) : Int :=
  let currentScore := evaluatePartialBoard cells * 10
  let potential : Int := 0
  currentScore + potential

/-- `minimax` from the AI module with alpha-beta pruning.  The `break`
statements are embedded as a sticky flag in the fold state: the flag is
set exactly when `beta <= alpha` holds after an update, and iterations
with the flag set leave the state untouched.  States are
(maxEval or minEval, alpha or beta, flag); in the maximizing branch beta
is fixed and alpha accumulates, symmetrically for minimizing. -/
def minimax : Nat → List CellData → List Nat → JNum → JNum → Bool → JNum
  | depth, cells, availableNums, alpha, beta, isMaximizing =>
    let emptyCells := cells.filter (fun c => c.value == none)
    if emptyCells.length == 0 then .fin (evaluatePartialBoard cells * 10)
    else
      match depth with
      | 0 => .fin (heuristicEvaluation cells)
      | depth' + 1 =>
        if isMaximizing then
          let final := emptyCells.foldl
            (fun (st : JNum × JNum × Bool) cell =>
              if st.2.2 then st
              else
                availableNums.foldl
                  (fun (st2 : JNum × JNum × Bool) num =>
                    if st2.2.2 then st2
                    else
                      let nextCells := placeNumber cells cell.id num
                      let nextNums := availableNums.filter (fun n => n != num)
                      let evalScore := minimax depth' nextCells nextNums st2.2.1 beta false
                      let maxEval := JNum.max st2.1 evalScore
                      let alpha2 := JNum.max st2.2.1 evalScore
                      (maxEval, alpha2, JNum.le beta alpha2))
                  st)
            (JNum.negInf, alpha, false)
          final.1
        else
          let final := emptyCells.foldl
            (fun (st : JNum × JNum × Bool) cell =>
              if st.2.2 then st
              else
                availableNums.foldl
                  (fun (st2 : JNum × JNum × Bool) num =>
                    if st2.2.2 then st2
                    else
                      let nextCells := placeNumber cells cell.id num
                      let nextNums := availableNums.filter (fun n => n != num)
                      let evalScore := minimax depth' nextCells nextNums alpha st2.2.1 true
                      let minEval := JNum.min st2.1 evalScore
                      let beta2 := JNum.min st2.2.1 evalScore
                      (minEval, beta2, JNum.le beta2 alpha))
                  st)
            (JNum.posInf, beta, false)
          final.1

/-- `getMinimaxMove` from the AI module: the root maximizing loop, with
state (bestScore, bestMove, alpha, flag) and beta fixed at infinity;
falls back to a random move only when no candidate was recorded. -/
def getMinimaxMove (cells : List CellData) (availableNums : List Nat)
    (maxDepth : Nat) (rng : Nat → ℚ) : Move :=
  let emptyCells := cells.filter (fun c => c.value == none)
  let beta := JNum.posInf
  let final := emptyCells.foldl
    (fun (st : JNum × Option Move × JNum × Bool) cell =>
      if st.2.2.2 then st
      else
        availableNums.foldl
          (fun (st2 : JNum × Option Move × JNum × Bool) num =>
            if st2.2.2.2 then st2
            else
              let nextCells := placeNumber cells cell.id num
              let nextNums := availableNums.filter (fun n => n != num)
              let score := minimax (maxDepth - 1) nextCells nextNums st2.2.2.1 beta false
              let best2 :=
                if st2.1.lt score then (score, some (Move.mk cell.id num))
                else (st2.1, st2.2.1)
              let alpha2 := JNum.max st2.2.2.1 best2.1
              (best2.1, best2.2, alpha2, JNum.le beta alpha2))
          st)
    (JNum.negInf, none, JNum.negInf, false)
  match final.2.1 with
  | some m => m
  | none => getRandomMove emptyCells availableNums rng 0

/-- The root maximizing loop of `getMinimaxMove`, named so that the
theorems can speak about its accumulated best move; `getMinimaxMove`
is definitionally this fold followed by the random fallback. -/
def minimaxRootFold (cells : List CellData) (availableNums : List Nat)
    (maxDepth : Nat) : JNum × Option Move × JNum × Bool :=
  let emptyCells := cells.filter (fun c => c.value == none)
  let beta := JNum.posInf
  emptyCells.foldl
    (fun (st : JNum × Option Move × JNum × Bool) cell =>
      if st.2.2.2 then st
      else
        availableNums.foldl
          (fun (st2 : JNum × Option Move × JNum × Bool) num =>
            if st2.2.2.2 then st2
            else
              let nextCells := placeNumber cells cell.id num
              let nextNums := availableNums.filter (fun n => n != num)
              let score := minimax (maxDepth - 1) nextCells nextNums st2.2.2.1 beta false
              let best2 :=
                if st2.1.lt score then (score, some (Move.mk cell.id num))
                else (st2.1, st2.2.1)
              let alpha2 := JNum.max st2.2.2.1 best2.1
              (best2.1, best2.2, alpha2, JNum.le beta alpha2))
          st)
    (JNum.negInf, none, JNum.negInf, false)

/-- `getBestMove` from the AI module: dispatch on difficulty.  The random
source is threaded explicitly; call `k` of `Math.random()` reads
`rng k`. -/
def getBestMove (cells : List CellData) (difficulty : Difficulty)
    (rng : Nat → ℚ) : Option Move :=
  let availableNums := getAvailableNumbers cells
  let emptyCells := cells.filter (fun c => c.value == none)
  if availableNums.length == 0 || emptyCells.length == 0 then none
  else
    match difficulty with
    | .easy => some (getRandomMove emptyCells availableNums rng 0)
    | .medium =>
      -- 30% chance of a random move, otherwise greedy (random fallback)
      if rng 0 < 3 / 10 then some (getRandomMove emptyCells availableNums rng 1)
      else
        match findBestGreedyMove cells emptyCells availableNums with
        | some m => some m
        | none => some (getRandomMove emptyCells availableNums rng 1)
    | .hard =>
      if availableNums.length > 8 then
        match findBestGreedyMove cells emptyCells availableNums with
        | some m => some m
        | none => some (getRandomMove emptyCells availableNums rng 0)
      else
        let depth := if availableNums.length ≤ 6 then 6 else 4
        some (getMinimaxMove cells availableNums depth rng)

/-! ## Online layer

Two evolutions coexist in the repository: src/utils/online.ts (the
unversioned, last-write-wins store document `NPointData`) and
src/unnamed/part_007 (the `OnlineDataStore` document with a version
field and conflict detection).  Both are embedded; the suffixes LW and
CD distinguish their transforms. -/

/-- `OnlinePlayer` from types.ts. -/
structure OnlinePlayer where
  id : String
  name : String
  timestamp : Int
deriving DecidableEq, Repr

/-- `OnlineGameData` from types.ts. -/
structure OnlineGameData where
  id : String
  p1 : OnlinePlayer
  p2 : Option OnlinePlayer
  cells : List CellData
  currentTurn : Player
  winner : Option Winner
  lastUpdate : Int
  isPrivate : Option Bool
  privateKey : Option String
deriving DecidableEq, Repr

/-- `NPointData` from types.ts, the store document of the
src/utils/online.ts evolution: no version field.  The JS record
`active_games` is embedded as an association list. -/
structure NPointData where
  waiting_players : List OnlinePlayer
  active_games : List (String × OnlineGameData)
deriving DecidableEq, Repr

/-- Record lookup `data.active_games[gameId]`. -/
def lookupGame (games : List (String × OnlineGameData)) (gameId : String) :
    Option OnlineGameData :=
  (games.find? (fun g => g.1 == gameId)).map (·.2)

/-- Record update `data.active_games[gameId] = game` for an existing key
(also the effect of the JS in-place mutation of the looked-up game). -/
def insertGame (games : List (String × OnlineGameData)) (gameId : String)
    (game : OnlineGameData) : List (String × OnlineGameData) :=
  games.map (fun g => if g.1 == gameId then (g.1, game) else g)

/-- The pure transform inside `placeMove` in src/utils/online.ts:
participant and turn are validated, the move is applied with no
occupied-cell check, completion records the Rule Engine's overall winner
(and leaves the turn), otherwise the turn flips; `lastUpdate` is
stamped.  In the source a Rule Engine failure would escape as an
exception; here it aborts — the branch is unreachable when the game
holds the fixed ten-cell layout, since a full board has the master cell
filled. -/
def placeMoveTransformLW (gameId playerId : String) (cellId numberVal : Nat)
    (now : Int) (data : NPointData) : Option NPointData :=
  match lookupGame data.active_games gameId with
  | none => none   -- "Spillet finnes ikke lenger."
  | some game =>
    let isP1 := game.p1.id == playerId
    let isP2 := match game.p2 with | some p => p.id == playerId | none => false
    if !isP1 && !isP2 then none   -- "Du er ikke med i dette spillet."
    else
      let isMyTurn := (game.currentTurn == Player.p1 && isP1) ||
                      (game.currentTurn == Player.p2 && isP2)
      if !isMyTurn then none   -- "Ikke din tur!"
      else
        let newCells := placeNumber game.cells cellId numberVal
        let filledCount := (newCells.filter (fun c => c.value != none)).length
        if filledCount == 10 then   -- TOTAL_NUMBERS
          match calculateResults newCells with
          | .ok res =>
            let game2 := { game with
              cells := newCells,
              winner := some res.overallWinner,
              lastUpdate := now }
            some { data with active_games := insertGame data.active_games gameId game2 }
          | .error _ => none
        else
          let game2 := { game with
            cells := newCells,
            currentTurn := if game.currentTurn = .p1 then .p2 else .p1,
            lastUpdate := now }
          some { data with active_games := insertGame data.active_games gameId game2 }

/-- `transactionalUpdate` in src/utils/online.ts: a single
fetch-transform-overwrite cycle with no version check and no retry.
Returns the reported success flag and the document posted, if any
(`postOk` is whether the store accepted the POST). -/
def transactionalUpdateLW (updateFn : NPointData → Option NPointData)
    (fetchRes : Option NPointData) (postOk : Bool) : Bool × Option NPointData :=
  match fetchRes with
  | none => (false, none)
  | some data =>
    match updateFn data with
    | none => (false, none)
    | some newData => (postOk, some newData)

/-- `OnlineDataStore` from src/unnamed/part_007: the versioned store
document. -/
structure OnlineDataStore where
  version : Nat
  lastCleanup : Int
  waiting_players : List OnlinePlayer
  active_games : List (String × OnlineGameData)
deriving DecidableEq, Repr

/-- npoint.io whole-document POST semantics (spec section 6): when the
request succeeds the posted document replaces the stored one
unconditionally — the store has no native optimistic lock, the version
field is an application-level convention inside the payload. -/
def npointPost (store posted : OnlineDataStore) (ok : Bool) : OnlineDataStore :=
  if ok then posted else store

/-- Result alternatives of `updateOnlineData` in part_007. -/
inductive UpdResult where
  | success (d : OnlineDataStore)
  | conflict (latest : OnlineDataStore)
  | failure
deriving DecidableEq, Repr

/-- `maxConflictRetries` default of `updateOnlineData` in part_007. -/
def maxConflictRetries : Nat := 3

/-- `updateOnlineData` from src/unnamed/part_007.  The environment
supplies, per loop iteration, whether the POST succeeded and, on
failure, the re-fetch result.  The version is bumped on the posted copy;
the version comparison happens only on the POST-failure path. -/
def updateOnlineData (data : OnlineDataStore) :
    List (Bool × Option OnlineDataStore) → UpdResult
  | [] => .failure
  | (postOk, fetchRes) :: rest =>
    let updatedData := { data with version := data.version + 1 }
    if postOk then .success updatedData
    else
      match fetchRes with
      | none => .failure
      | some latest =>
        if data.version < latest.version then .conflict latest
        else updateOnlineData data rest

/-- `maxRetries` default of `transactionalUpdate` in part_007. -/
def maxRetries : Nat := 5

/-- `transactionalUpdate` from src/unnamed/part_007.  The environment
supplies, per attempt, the fetch result and the inner environment of the
`updateOnlineData` call.  A failed fetch consumes the attempt; a
transform abort stops immediately with false; a conflict or network
failure retries from a fresh fetch; an exhausted attempt list reports
false. -/
def transactionalUpdate (updateFn : OnlineDataStore → Option OnlineDataStore) :
    List (Option OnlineDataStore × List (Bool × Option OnlineDataStore)) → Bool
  | [] => false
  | (fetchRes, uenv) :: rest =>
    match fetchRes with
    | none => transactionalUpdate updateFn rest
    | some currentData =>
      match updateFn currentData with
      | none => false
      | some newData =>
        match updateOnlineData newData uenv with
        | .success _ => true
        | .conflict _ => transactionalUpdate updateFn rest
        | .failure => transactionalUpdate updateFn rest

/-- The pure transform inside `placeMove` in src/unnamed/part_007: the
submitter is classified as p1 exactly when their id equals p1's id and
is otherwise treated as p2; the target cell must exist and be empty; the
turn flips only while the board is still incomplete; no winner is ever
recorded. -/
def placeMoveTransformCD (gameId playerId : String) (cellId numberVal : Nat)
    (now : Int) (data : OnlineDataStore) : Option OnlineDataStore :=
  match lookupGame data.active_games gameId with
  | none => none
  | some game =>
    let amIP1 := game.p1.id == playerId
    let isMyTurn := (game.currentTurn == Player.p1 && amIP1) ||
                    (game.currentTurn == Player.p2 && !amIP1)
    if !isMyTurn then none
    else
      match game.cells.find? (fun c => c.id == cellId) with
      | none => none
      | some cell =>
        if cell.value != none then none
        else
          let newCells := placeNumber game.cells cellId numberVal
          let filledCount := (newCells.filter (fun c => c.value != none)).length
          let game2 := { game with
            cells := newCells,
            currentTurn :=
              if filledCount < 10 then
                (if game.currentTurn = .p1 then .p2 else .p1)
              else game.currentTurn,
            lastUpdate := now }
          some { data with active_games := insertGame data.active_games gameId game2 }

/-- The numbers already placed on a board. -/
def usedValues (cells : List CellData) : List Nat :=
  cells.filterMap CellData.value

/-- The board invariant from spec section 3: every placed number is used
by at most one cell. -/
def atMostOnce (cells : List CellData) : Prop :=
  (usedValues cells).Nodup

instance (cells : List CellData) : Decidable (atMostOnce cells) := by
  unfold atMostOnce; infer_instance

/-! ## Spec-side notions (stated from the specification text, for
comparison with the embedded source functions) -/

/-- A row has both slot values and its key filled. -/
def rowComplete (cells : List CellData) (r : Nat) : Bool :=
  match rowLookup cells r with
  | (some _, some _, some _) => true
  | _ => false

/-- Spec section 4.1: a row is fully determinable right now when all
four of its cells (both slots, row key, master key) are filled. -/
def rowDeterminable (cells : List CellData) (r : Nat) : Bool :=
  rowComplete cells r && masterValue cells != none

/-- The row rule as the spec words it: parity match means low-wins,
mismatch means high-wins. -/
def specRowRule (keyV masterV : Nat) : Reason :=
  if isEven keyV = isEven masterV then .low else .high

/-- The row winner as the spec words it: under low-wins the strictly
smaller slot value wins, under high-wins the strictly larger, equal slot
values tie. -/
def specRowWinner (p1V p2V keyV masterV : Nat) : Winner :=
  match specRowRule keyV masterV with
  | .low => if p1V < p2V then .p1 else if p2V < p1V then .p2 else .tie
  | .high => if p2V < p1V then .p1 else if p1V < p2V then .p2 else .tie

/-- Spec-side reconstruction of the row result the engine should
produce for a complete row, given the master value `m`. -/
def specRowResult (cells : List CellData) (m r : Nat) : Option RowResult :=
  match rowLookup cells r with
  | (some a, some b, some k) =>
    some ⟨r, specRowWinner a b k m, specRowRule k m, a, b, k, m,
      isEven m == isEven k⟩
  | _ => none

/-- The spec-side winner of row `r` (when the row is complete). -/
def specRowWinnerAt (cells : List CellData) (m r : Nat) : Option Winner :=
  (specRowResult cells m r).map RowResult.winner

/-! ## Concrete fixtures used by the counterexample and witness
theorems -/

/-- A store document at version 5 (representing newer concurrent
state). -/
def chaseStore : OnlineDataStore := ⟨5, 0, [], []⟩

/-- A writer's document based on the older version 3. -/
def staleBase : OnlineDataStore := ⟨3, 0, [], []⟩

/-- A board with only the master key filled (value 2): incomplete in
every row. -/
def masterOnlyBoard : List CellData :=
  partialBoard (fun i => if i = 9 then some 2 else none)

/-- Nine placements leaving only the master key empty: row 0 holds
p1=10, p2=1, key=4; row 1 holds p1=3, p2=8, key=6; row 2 holds p1=9,
p2=7, key=5. -/
def nineBoard : List CellData :=
  partialBoard (fun i =>
    if i = 9 then none else some ([10, 1, 4, 3, 8, 6, 9, 7, 5].getD i 0))

/-- `nineBoard` after placing the master key value 2: completes all
three rows at once (row 0 for p2, rows 1 and 2 for p1). -/
def nineBoardDone : List CellData := placeNumber nineBoard 9 2

/-- Player fixtures. -/
def playerA : OnlinePlayer := ⟨"a", "Alice", 0⟩

def playerB : OnlinePlayer := ⟨"b", "Bob", 0⟩

/-- A fresh online game between `playerA` and `playerB` in which cell 0
already holds 5, with p1 on turn. -/
def gameWith5 : OnlineGameData :=
  ⟨"g", playerA, some playerB,
   partialBoard (fun i => if i = 0 then some 5 else none),
   .p1, none, 0, none, none⟩

/-- A versioned store holding `gameWith5`. -/
def storeWith5 : OnlineDataStore := ⟨1, 0, [], [("g", gameWith5)]⟩

/-- A fresh online game in which cell 0 already holds 3, with p1 on
turn. -/
def gameWith3 : OnlineGameData :=
  ⟨"g", playerA, some playerB,
   partialBoard (fun i => if i = 0 then some 3 else none),
   .p1, none, 0, none, none⟩

/-- An unversioned store holding `gameWith3`. -/
def dataWith3 : NPointData := ⟨[], [("g", gameWith3)]⟩

/-- A game with p2 on turn (for the non-participant counterexample). -/
def gameTurnP2 : OnlineGameData :=
  ⟨"g", playerA, some playerB, partialBoard (fun _ => none),
   .p2, none, 0, none, none⟩

/-- A versioned store holding `gameTurnP2`. -/
def storeTurnP2 : OnlineDataStore := ⟨1, 0, [], [("g", gameTurnP2)]⟩

/-- A completely fresh online game between `playerA` and `playerB`,
p1 on turn (the end-to-end scenario of spec section 8). -/
def freshGame : OnlineGameData :=
  ⟨"g", playerA, some playerB, partialBoard (fun _ => none),
   .p1, none, 0, none, none⟩

/-- An unversioned store holding `freshGame`. -/
def freshData : NPointData := ⟨[], [("g", freshGame)]⟩

/-- A `transactionalUpdate` attempt that does not commit: its fetch
failed, or the document the transform produced was not written
successfully. -/
def attemptFails (f : OnlineDataStore → Option OnlineDataStore)
    (p : Option OnlineDataStore × List (Bool × Option OnlineDataStore)) :
    Prop :=
  match p.1 with
  | none => True
  | some d => ∀ d2, f d = some d2 → ∀ x, updateOnlineData d2 p.2 ≠ .success x

end Stig

-- sanity examples (spec.md section 8 worked example)
example :
    Stig.calculateResults (Stig.fullBoard (fun i =>
      [3, 7, 6, 1, 2, 5, 8, 9, 10, 4].getD i 0)) =
    .ok ⟨[⟨0, .p1, .low, 3, 7, 6, 4, true⟩,
          ⟨1, .p2, .high, 1, 2, 5, 4, false⟩,
          ⟨2, .p1, .low, 8, 9, 10, 4, true⟩],
         2, 1, .p1⟩ := rfl

example : Stig.evaluatePartialBoard Stig.INITIAL_CELLS = 0 := by decide

example : Stig.getAvailableNumbers
    (Stig.partialBoard (fun i => if i = 0 then some 5 else none)) =
    [1, 2, 3, 4, 6, 7, 8, 9, 10] := by decide

namespace Stig

/-- C2: against the claim that a write whose base version is behind the
store's current version is never committed, the conflict-detection
client of part_007 checks versions only on the POST-failure path: a
successful POST based on version 3 is reported as success and replaces a
store already at version 5, leaving the store at version 4 — the stale
write is committed and the newer state clobbered. -/
theorem updateOnlineData_commits_stale_write :
    updateOnlineData staleBase [(true, none)] =
      .success { staleBase with version := 4 } ∧
    npointPost chaseStore { staleBase with version := 4 } true =
      { staleBase with version := 4 } ∧
    (npointPost chaseStore { staleBase with version := 4 } true).version <
      chaseStore.version := by
  decide

/-- C6 counterexample: on a board where only the master key is filled —
so no row has its slot and key values — `calculateResults` does not fail
with an incomplete-board error; it returns a `GameResult` with no row
results and an overall tie.  Only a missing or unfilled master key
raises the error; incomplete rows are silently skipped. -/
theorem calculateResults_ok_on_incomplete_board :
    (∀ r, r < 3 → rowComplete masterOnlyBoard r = false) ∧
    calculateResults masterOnlyBoard = .ok ⟨[], 0, 0, .tie⟩ := by
  exact ⟨by decide, rfl⟩

/-- C7 counterexample: placing the master key (value 2) on `nineBoard`
completes the previously-undetermined row 0 in p2's favor, yet the
p2-minus-p1 score strictly decreases (from 0 to -1), because the same
placement simultaneously completes rows 1 and 2 in p1's favor. -/
theorem evaluatePartial_decreases_on_completing_placement :
    rowDeterminable nineBoard 0 = false ∧
    nineBoardDone = placeNumber nineBoard 9 2 ∧
    rowDeterminable nineBoardDone 0 = true ∧
    rowLookup nineBoardDone 0 = (some 10, some 1, some 4) ∧
    masterValue nineBoardDone = some 2 ∧
    specRowWinner 10 1 4 2 = .p2 ∧
    evaluatePartialBoard nineBoardDone < evaluatePartialBoard nineBoard := by
  decide

/-- C4 counterexample: in the `placeMove` transform of
src/utils/online.ts, a submission by the participant on turn against an
already-occupied cell is not rejected: the transform succeeds and the
stored value 3 in cell 0 is overwritten with 7. -/
theorem placeMoveLW_accepts_occupied_cell :
    (∃ c ∈ gameWith3.cells, c.id = 0 ∧ c.value = some 3) ∧
    ∃ d, placeMoveTransformLW "g" "a" 0 7 5 dataWith3 = some d ∧
      ∃ g, lookupGame d.active_games "g" = some g ∧
        (g.cells.find? (fun c => c.id == 0)).map CellData.value =
          some (some 7) := by
  exact ⟨⟨⟨0, some 3, .p1, some 0⟩, by decide, rfl, rfl⟩, _, rfl, _, rfl, by decide⟩

/-- C9 counterexample: the `placeMove` transform of part_007 validates
only that the target cell is empty, not that the submitted number is
unused: submitting 5 into empty cell 1 of a board that already holds 5
in cell 0 is accepted, and the committed board uses the number 5 twice. -/
theorem placeMoveCD_breaks_uniqueness :
    atMostOnce gameWith5.cells ∧
    ∃ d, placeMoveTransformCD "g" "a" 1 5 7 storeWith5 = some d ∧
      ∃ g, lookupGame d.active_games "g" = some g ∧ ¬ atMostOnce g.cells := by
  exact ⟨by decide, _, rfl, _, rfl, by decide⟩

end Stig

namespace Stig

/-- A row's lookup succeeds in all three components exactly when the row
is complete. -/
theorem rowComplete_iff (cells : List CellData) (r : Nat) :
    rowComplete cells r = true ↔
      ∃ a b k, rowLookup cells r = (some a, some b, some k) := by
  unfold rowComplete
  rcases rowLookup cells r with ⟨o1, o2, o3⟩
  cases o1 <;> cases o2 <;> cases o3 <;> simp

/-- An incomplete row leaves the `calculateResults` accumulator
untouched (the `continue` branch). -/
theorem calcRow_skip (cells : List CellData) (m : Nat)
    (acc : List RowResult × Nat × Nat) (r : Nat)
    (h : rowComplete cells r = false) : calcRow cells m acc r = acc := by
  unfold calcRow
  unfold rowComplete at h
  rcases hr : rowLookup cells r with ⟨o1, o2, o3⟩
  rw [hr] at h
  cases o1 <;> cases o2 <;> cases o3 <;> simp_all

/-- A complete row appends exactly one row result. -/
theorem calcRow_extend (cells : List CellData) (m : Nat)
    (acc : List RowResult × Nat × Nat) (r : Nat)
    (h : rowComplete cells r = true) :
    ∃ rr s1 s2, calcRow cells m acc r = (acc.1 ++ [rr], s1, s2) := by
  obtain ⟨a, b, k, hr⟩ := (rowComplete_iff cells r).mp h
  unfold calcRow
  rw [hr]
  exact ⟨_, _, _, rfl⟩

/-- The row-results list built by the `calculateResults` fold grows by
exactly the number of complete rows. -/
theorem calcRow_fold_length (cells : List CellData) (m : Nat)
    (rs : List Nat) (acc : List RowResult × Nat × Nat) :
    ((rs.foldl (calcRow cells m) acc).1).length =
      acc.1.length + (rs.filter (fun r => rowComplete cells r)).length := by
  induction rs generalizing acc with
  | nil => simp
  | cons r rest ih =>
    cases h : rowComplete cells r with
    | false =>
      rw [List.foldl_cons, calcRow_skip cells m acc r h]
      simp [h, ih]
    | true =>
      obtain ⟨rr, s1, s2, e⟩ := calcRow_extend cells m acc r h
      rw [List.foldl_cons, e]
      simp [h, ih]
      omega

/-- C6 amended: `calculateResults` fails exactly when the master-key
cell is missing or unfilled; with a filled master key it always returns
a result, whose row results are exactly the complete rows — incomplete
rows are skipped rather than fatal. -/
theorem calculateResults_error_iff_master_missing (cells : List CellData) :
    ((∃ e, calculateResults cells = .error e) ↔ masterValue cells = none) ∧
    (∀ res, calculateResults cells = .ok res →
      res.rowResults.length =
        (([0, 1, 2] : List Nat).filter (fun r => rowComplete cells r)).length) := by
  constructor
  · cases h : masterValue cells <;> simp [calculateResults, h]
  · intro res hres
    cases h : masterValue cells with
    | none => simp [calculateResults, h] at hres
    | some m =>
      simp only [calculateResults, h, Except.ok.injEq] at hres
      subst hres
      simpa using calcRow_fold_length cells m [0, 1, 2] ([], 0, 0)

/-- Witness for the C6 amended theorem at the concrete incomplete board
`masterOnlyBoard`: no error is raised and no row result is produced. -/
theorem calculateResults_error_iff_master_missing_witness :
    ∃ res, calculateResults masterOnlyBoard = .ok res ∧
      res.rowResults.length = 0 :=
  ⟨⟨[], 0, 0, .tie⟩, rfl,
    (calculateResults_error_iff_master_missing masterOnlyBoard).2 _ rfl⟩

end Stig

namespace Stig

/-- C3: the transaction loop of part_007 runs for `maxRetries = 5`
attempts.  An attempt whose fetch yields `d` and whose transform yields
`d2` posts `d2` with its version incremented, and reports committed on a
successful write; a write that ends in a detected conflict discards the
attempt's copy and retries the whole cycle on the remaining attempts
(which each start from a fresh fetch); when every attempt fails to
commit, the transaction reports failed. -/
theorem transactionalUpdate_spec :
    (maxRetries = 5 ∧ 5 ≤ maxRetries) ∧
    (∀ (f : OnlineDataStore → Option OnlineDataStore) (d d2 : OnlineDataStore)
        (fr : Option OnlineDataStore)
        (urest : List (Bool × Option OnlineDataStore))
        (rest : List (Option OnlineDataStore × List (Bool × Option OnlineDataStore))),
      f d = some d2 →
        updateOnlineData d2 ((true, fr) :: urest) =
          .success { d2 with version := d2.version + 1 } ∧
        transactionalUpdate f ((some d, (true, fr) :: urest) :: rest) = true) ∧
    (∀ (f : OnlineDataStore → Option OnlineDataStore) (d d2 latest : OnlineDataStore)
        (uenv : List (Bool × Option OnlineDataStore))
        (rest : List (Option OnlineDataStore × List (Bool × Option OnlineDataStore))),
      f d = some d2 →
      updateOnlineData d2 uenv = .conflict latest →
        transactionalUpdate f ((some d, uenv) :: rest) =
          transactionalUpdate f rest) ∧
    (∀ (f : OnlineDataStore → Option OnlineDataStore)
        (env : List (Option OnlineDataStore × List (Bool × Option OnlineDataStore))),
      (∀ p ∈ env, attemptFails f p) → transactionalUpdate f env = false) := by
  refine ⟨⟨rfl, le_refl 5⟩, ?_, ?_, ?_⟩
  · intro f d d2 fr urest rest hf
    constructor
    · rfl
    · simp [transactionalUpdate, hf, updateOnlineData]
  · intro f d d2 latest uenv rest hf hconf
    simp only [transactionalUpdate, hf, hconf]
  · intro f env h
    induction env with
    | nil => rfl
    | cons p rest ih =>
      obtain ⟨fetchRes, uenv⟩ := p
      have hp := h (fetchRes, uenv) (List.mem_cons_self _ _)
      have hrest := ih (fun q hq => h q (List.mem_cons_of_mem _ hq))
      cases fetchRes with
      | none => simp only [transactionalUpdate, hrest]
      | some d =>
        cases hf : f d with
        | none => simp only [transactionalUpdate, hf]
        | some d2 =>
          have hne := hp d2 hf
          simp only [transactionalUpdate, hf]
          cases hu : updateOnlineData d2 uenv with
          | success x => exact absurd hu (hne x)
          | conflict latest => simp only [hu, hrest]
          | failure => simp only [hu, hrest]

/-- Witness for the C3 theorem: with the identity transform, a
first-attempt success commits (version bumped from 3 to 4), a conflict
on the single available attempt reports failed, and the empty attempt
list reports failed. -/
theorem transactionalUpdate_spec_witness :
    updateOnlineData staleBase [(true, none)] =
      .success { staleBase with version := 4 } ∧
    transactionalUpdate (fun d => some d) [(some staleBase, [(true, none)])] = true ∧
    transactionalUpdate (fun d => some d)
      [(some staleBase, [(false, some chaseStore)])] = false := by
  refine ⟨(transactionalUpdate_spec.2.1 (fun d => some d) staleBase staleBase
      none [] [] rfl).1,
    (transactionalUpdate_spec.2.1 (fun d => some d) staleBase staleBase
      none [] [] rfl).2, ?_⟩
  refine transactionalUpdate_spec.2.2.2 (fun d => some d) _ ?_
  intro p hp
  simp only [List.mem_singleton] at hp
  subst hp
  intro d2 hd2 x
  cases hd2
  have hu : updateOnlineData staleBase [(false, some chaseStore)] =
      .conflict chaseStore := by decide
  rw [hu]
  simp

end Stig


namespace Stig

/-- `placeNumber` acts pointwise on a cons. -/
theorem placeNumber_cons (c : CellData) (rest : List CellData)
    (cellId n : Nat) :
    placeNumber (c :: rest) cellId n =
      (if c.id == cellId then { c with value := some n } else c) ::
        placeNumber rest cellId n := rfl

/-- `usedValues` over a cons with a filled head. -/
theorem usedValues_cons_some (c : CellData) (rest : List CellData) (v : Nat)
    (h : c.value = some v) :
    usedValues (c :: rest) = v :: usedValues rest := by
  simp [usedValues, List.filterMap_cons, h]

/-- `usedValues` over a cons with an empty head. -/
theorem usedValues_cons_none (c : CellData) (rest : List CellData)
    (h : c.value = none) :
    usedValues (c :: rest) = usedValues rest := by
  simp [usedValues, List.filterMap_cons, h]

/-- A placement never raises the multiplicity of any number other than
the one placed. -/
theorem count_usedValues_place_ne (cells : List CellData) (cellId n m : Nat)
    (hmn : m ≠ n) :
    (usedValues (placeNumber cells cellId n)).count m ≤
      (usedValues cells).count m := by
  induction cells with
  | nil => simp [usedValues, placeNumber]
  | cons c rest ih =>
    rw [placeNumber_cons]
    have hn : ∀ l : List Nat, List.count m (n :: l) = List.count m l := by
      intro l
      simp [List.count_cons, Ne.symm hmn]
    by_cases hc : (c.id == cellId) = true
    · rw [if_pos hc, usedValues_cons_some _ _ n rfl, hn]
      cases hv : c.value with
      | none =>
        rw [usedValues_cons_none _ _ hv]
        exact ih
      | some v =>
        rw [usedValues_cons_some _ _ v hv, List.count_cons]
        exact le_trans ih (Nat.le_add_right _ _)
    · rw [if_neg hc]
      cases hv : c.value with
      | none =>
        rw [usedValues_cons_none _ _ hv, usedValues_cons_none _ _ hv]
        exact ih
      | some v =>
        rw [usedValues_cons_some _ _ v hv, usedValues_cons_some _ _ v hv,
          List.count_cons, List.count_cons]
        exact Nat.add_le_add_right ih _

/-- The multiplicity of the placed number grows by at most the number of
cells carrying the target id. -/
theorem count_usedValues_place_self (cells : List CellData) (cellId n : Nat) :
    (usedValues (placeNumber cells cellId n)).count n ≤
      cells.countP (fun c => c.id == cellId) + (usedValues cells).count n := by
  induction cells with
  | nil => simp [usedValues, placeNumber]
  | cons c rest ih =>
    rw [placeNumber_cons]
    by_cases hc : (c.id == cellId) = true
    · have hcp : List.countP (fun c => c.id == cellId) (c :: rest) =
          List.countP (fun c => c.id == cellId) rest + 1 := by
        simp [List.countP_cons, hc]
      rw [if_pos hc, usedValues_cons_some _ _ n rfl, List.count_cons_self, hcp]
      cases hv : c.value with
      | none =>
        rw [usedValues_cons_none _ _ hv]
        omega
      | some v =>
        rw [usedValues_cons_some _ _ v hv, List.count_cons]
        omega
    · have hcp : List.countP (fun c => c.id == cellId) (c :: rest) =
          List.countP (fun c => c.id == cellId) rest := by
        simp [List.countP_cons, hc]
      rw [if_neg hc, hcp]
      cases hv : c.value with
      | none =>
        rw [usedValues_cons_none _ _ hv, usedValues_cons_none _ _ hv]
        exact ih
      | some v =>
        rw [usedValues_cons_some _ _ v hv, usedValues_cons_some _ _ v hv,
          List.count_cons, List.count_cons]
        omega

end Stig

namespace Stig

/-- C9 amended: a placement preserves the at-most-one-cell-per-number
invariant whenever the placed number is drawn from the board's unused
pool (`getAvailableNumbers`, as the local number bank and the computer
opponent do) and cell ids are unique, the underlying placement step
being shared by the local handler, the bot move, and both online
`placeMove` transforms.  The online transforms themselves check only
cell emptiness, not number freshness, so the unused-number premise is
essential (see the counterexample). -/
theorem placeNumber_preserves_atMostOnce (cells : List CellData)
    (cellId n : Nat)
    (hid : cells.countP (fun c => c.id == cellId) ≤ 1)
    (hn : n ∈ getAvailableNumbers cells)
    (hinv : atMostOnce cells) :
    atMostOnce (placeNumber cells cellId n) := by
  have hfresh : n ∉ usedValues cells := by
    have := (List.mem_filter.mp hn).2
    simpa [usedValues] using this
  rw [atMostOnce, List.nodup_iff_count_le_one] at hinv ⊢
  intro m
  by_cases hm : m = n
  · subst hm
    have h1 := count_usedValues_place_self cells cellId m
    have h0 : (usedValues cells).count m = 0 := by
      rw [List.count_eq_zero]
      exact hfresh
    omega
  · exact le_trans (count_usedValues_place_ne cells cellId n m hm) (hinv m)

/-- Witness for the C9 amended theorem: placing the unused number 7 into
cell 1 of the board that holds 5 in cell 0 keeps every number on at most
one cell. -/
theorem placeNumber_preserves_atMostOnce_witness :
    atMostOnce (placeNumber gameWith5.cells 1 7) :=
  placeNumber_preserves_atMostOnce gameWith5.cells 1 7 (by decide) (by decide)
    (by decide)

end Stig

namespace Stig

/-- C4 amended: the `placeMove` transform of src/utils/online.ts aborts
— returning none, so the transaction posts nothing, the stored record is
unchanged, and failure is reported — whenever the target game is
missing, the submitter is not a participant, or it is not the
submitter's turn.  The occupied-cell rejection asserted by the claim is
not performed by this transform (see the counterexample): a move by the
participant on turn against a filled cell overwrites it. -/
theorem placeMoveLW_aborts (data : NPointData) (gameId playerId : String)
    (cellId n : Nat) (now : Int) (postOk : Bool)
    (h : lookupGame data.active_games gameId = none ∨
      ∃ game, lookupGame data.active_games gameId = some game ∧
        (¬(game.p1.id = playerId ∨ ∃ p, game.p2 = some p ∧ p.id = playerId) ∨
         ¬((game.currentTurn = .p1 ∧ game.p1.id = playerId) ∨
           (game.currentTurn = .p2 ∧
             ∃ p, game.p2 = some p ∧ p.id = playerId)))) :
    placeMoveTransformLW gameId playerId cellId n now data = none ∧
    transactionalUpdateLW (placeMoveTransformLW gameId playerId cellId n now)
      (some data) postOk = (false, none) := by
  have habort : placeMoveTransformLW gameId playerId cellId n now data = none := by
    rcases h with h | ⟨game, hg, hcond⟩
    · simp only [placeMoveTransformLW, h]
    · rcases hcond with hpart | hturn
      · push_neg at hpart
        obtain ⟨hp1, hp2⟩ := hpart
        have hb1 : (game.p1.id == playerId) = false := by simp [hp1]
        have hb2 : (match game.p2 with
            | some p => p.id == playerId
            | none => false) = false := by
          cases hq : game.p2 with
          | none => rfl
          | some p => simp [hp2 p hq]
        simp [placeMoveTransformLW, hg, hb1, hb2]
      · push_neg at hturn
        obtain ⟨ht1, ht2⟩ := hturn
        have hmt : ((game.currentTurn == Player.p1 && (game.p1.id == playerId)) ||
            (game.currentTurn == Player.p2 && (match game.p2 with
              | some p => p.id == playerId
              | none => false))) = false := by
          cases hct : game.currentTurn with
          | p1 => simp [ht1 hct]
          | p2 =>
            cases hq : game.p2 with
            | none => simp
            | some p => simp [ht2 hct p hq]
        simp [placeMoveTransformLW, hg, hmt]
  refine ⟨habort, ?_⟩
  simp only [transactionalUpdateLW, habort]

/-- Witness for the C4 amended theorem: submitter `"b"` (p2) moving
while it is p1's turn is rejected without any write. -/
theorem placeMoveLW_aborts_witness :
    placeMoveTransformLW "g" "b" 1 7 5 dataWith3 = none ∧
    transactionalUpdateLW (placeMoveTransformLW "g" "b" 1 7 5)
      (some dataWith3) true = (false, none) :=
  placeMoveLW_aborts dataWith3 "g" "b" 1 7 5 true
    (Or.inr ⟨gameWith3, rfl, Or.inr (by
      rintro (⟨_, h⟩ | ⟨h, _⟩)
      · exact absurd h (by decide)
      · exact absurd h (by decide))⟩)

end Stig

namespace Stig

/-- Updating an existing key makes the lookup return the new game. -/
theorem lookupGame_insertGame_self (games : List (String × OnlineGameData))
    (gameId : String) (g g0 : OnlineGameData)
    (h : lookupGame games gameId = some g0) :
    lookupGame (insertGame games gameId g) gameId = some g := by
  induction games with
  | nil => simp [lookupGame] at h
  | cons e rest ih =>
    by_cases he : (e.1 == gameId) = true
    · simp [lookupGame, insertGame, List.find?, he]
    · simp only [lookupGame, insertGame, List.map_cons, if_neg he] at *
      simp only [List.find?, he] at h ⊢
      exact ih h

/-- Updating one key leaves every other key's lookup unchanged. -/
theorem lookupGame_insertGame_ne (games : List (String × OnlineGameData))
    (gameId gid : String) (g : OnlineGameData) (hne : gid ≠ gameId) :
    lookupGame (insertGame games gameId g) gid = lookupGame games gid := by
  induction games with
  | nil => rfl
  | cons e rest ih =>
    by_cases he : (e.1 == gameId) = true
    · have he1 : e.1 = gameId := by simpa using he
      have hg : (e.1 == gid) = false := by simp [he1, Ne.symm hne]
      simp only [lookupGame, insertGame, List.map_cons, if_pos he,
        List.find?, hg]
      simp only [lookupGame, insertGame] at ih
      exact ih
    · by_cases hgd : (e.1 == gid) = true
      · simp only [lookupGame, insertGame, List.map_cons, if_neg he,
          List.find?, hgd]
      · simp only [lookupGame, insertGame, List.map_cons, if_neg he,
          List.find?, hgd]
        simp only [lookupGame, insertGame] at ih
        exact ih

end Stig

namespace Stig

/-- C5: a `placeMove` submission through src/utils/online.ts that
succeeds commits exactly the claimed record: the submitted number placed
in the submitted cell, the turn flipped to the other player unless the
board became complete, the Rule Engine's overall result recorded as
`winner` exactly when the board became complete, `lastUpdate` stamped
with the submission time, every other field of the match record and
every other part of the store document unchanged. -/
theorem placeMoveLW_success_spec (data dataNew : NPointData)
    (gameId playerId : String) (cellId n : Nat) (now : Int)
    (game : OnlineGameData)
    (hg : lookupGame data.active_games gameId = some game)
    (hok : placeMoveTransformLW gameId playerId cellId n now data =
      some dataNew) :
    dataNew.waiting_players = data.waiting_players ∧
    (∀ gid, gid ≠ gameId →
      lookupGame dataNew.active_games gid = lookupGame data.active_games gid) ∧
    ∃ gameNew, lookupGame dataNew.active_games gameId = some gameNew ∧
      gameNew.cells = placeNumber game.cells cellId n ∧
      gameNew.lastUpdate = now ∧
      gameNew.id = game.id ∧ gameNew.p1 = game.p1 ∧ gameNew.p2 = game.p2 ∧
      gameNew.isPrivate = game.isPrivate ∧
      gameNew.privateKey = game.privateKey ∧
      (if ((placeNumber game.cells cellId n).filter
          (fun c => c.value != none)).length = 10 then
        gameNew.currentTurn = game.currentTurn ∧
        ∃ res, calculateResults (placeNumber game.cells cellId n) = .ok res ∧
          gameNew.winner = some res.overallWinner
      else
        gameNew.currentTurn = (if game.currentTurn = .p1 then .p2 else .p1) ∧
        gameNew.winner = game.winner) := by
  simp only [placeMoveTransformLW, hg] at hok
  split at hok
  · exact absurd hok (by simp)
  · split at hok
    · exact absurd hok (by simp)
    · split at hok
      · -- board complete: the Rule Engine branch
        rename_i hfill
        split at hok
        · rename_i res hcalc
          simp only [Option.some.injEq] at hok
          subst hok
          refine ⟨rfl, fun gid hne => lookupGame_insertGame_ne _ _ _ _ hne, ?_⟩
          refine ⟨_, lookupGame_insertGame_self _ _ _ _ hg, rfl, rfl, rfl,
            rfl, rfl, rfl, rfl, ?_⟩
          rw [if_pos (by simpa using hfill)]
          exact ⟨rfl, res, hcalc, rfl⟩
        · exact absurd hok (by simp)
      · -- board incomplete: the turn-flip branch
        rename_i hfill
        simp only [Option.some.injEq] at hok
        subst hok
        refine ⟨rfl, fun gid hne => lookupGame_insertGame_ne _ _ _ _ hne, ?_⟩
        refine ⟨_, lookupGame_insertGame_self _ _ _ _ hg, rfl, rfl, rfl,
          rfl, rfl, rfl, rfl, ?_⟩
        rw [if_neg (by simpa using hfill)]
        exact ⟨rfl, rfl⟩

end Stig

namespace Stig

/-- Witness for the C5 theorem: on the fresh match, p1 placing 5 in cell
0 commits a record with the value placed and `lastUpdate` stamped. -/
theorem placeMoveLW_success_spec_witness :
    ∃ d, placeMoveTransformLW "g" "a" 0 5 9 freshData = some d ∧
      ∃ gameNew, lookupGame d.active_games "g" = some gameNew ∧
        gameNew.cells = placeNumber freshGame.cells 0 5 ∧
        gameNew.lastUpdate = 9 := by
  refine ⟨_, rfl, ?_⟩
  obtain ⟨-, -, gameNew, h1, h2, h3, -⟩ :=
    placeMoveLW_success_spec freshData _ "g" "a" 0 5 9 freshGame rfl rfl
  exact ⟨gameNew, h1, h2, h3⟩

end Stig

namespace Stig

/-- The code's Bool parity test selects the same rule as the spec's
wording. -/
theorem codeReason_eq_spec (k m : Nat) :
    (if (isEven m == isEven k) = true then Reason.low else Reason.high) =
      specRowRule k m := by
  unfold specRowRule
  cases hk : isEven k <;> cases hm : isEven m <;> simp [hk, hm]

/-- The code's row-winner decision agrees with the spec's wording. -/
theorem codeWinner_eq_spec (a b k m : Nat) :
    (if (isEven m == isEven k) = true then
      (if a < b then Winner.p1 else if b < a then Winner.p2 else Winner.tie)
    else
      (if a > b then Winner.p1 else if b > a then Winner.p2 else Winner.tie)) =
      specRowWinner a b k m := by
  unfold specRowWinner specRowRule
  cases hk : isEven k <;> cases hm : isEven m <;> simp [hk, hm]

/-- A row ties exactly when the two slot values are equal. -/
theorem specRowWinner_tie_iff (a b k m : Nat) :
    specRowWinner a b k m = .tie ↔ a = b := by
  unfold specRowWinner specRowRule
  rcases Nat.lt_trichotomy a b with h | h | h
  · have h2 : ¬ b < a := by omega
    have h3 : a ≠ b := by omega
    split <;> simp [h, h2, h3]
  · subst h
    split <;> simp [Nat.lt_irrefl]
  · have h2 : ¬ a < b := by omega
    have h3 : a ≠ b := by omega
    split <;> simp [h, h2, h3]

end Stig

namespace Stig

/-- One engine loop iteration on a complete row, written with the
spec-side row result. -/
theorem calcRow_eval (cells : List CellData) (m : Nat)
    (acc : List RowResult × Nat × Nat) (r a b k : Nat)
    (h : rowLookup cells r = (some a, some b, some k)) :
    calcRow cells m acc r =
      (acc.1 ++ [⟨r, specRowWinner a b k m, specRowRule k m, a, b, k, m,
          isEven m == isEven k⟩],
       if specRowWinner a b k m = .p1 then acc.2.1 + 1 else acc.2.1,
       if specRowWinner a b k m = .p2 then acc.2.2 + 1 else acc.2.2) := by
  unfold calcRow
  rw [h, ← codeWinner_eq_spec a b k m, ← codeReason_eq_spec k m]

/-- The engine fold evaluated on complete rows: the row results are the
spec-side reconstructions and the scores tally the spec-side row
winners. -/
theorem calcRow_fold_eval (cells : List CellData) (m : Nat) (rs : List Nat)
    (acc : List RowResult × Nat × Nat)
    (hall : ∀ r ∈ rs, rowComplete cells r = true) :
    rs.foldl (calcRow cells m) acc =
      (acc.1 ++ rs.filterMap (fun r => specRowResult cells m r),
       acc.2.1 + (rs.filter (fun r =>
         specRowWinnerAt cells m r == some Winner.p1)).length,
       acc.2.2 + (rs.filter (fun r =>
         specRowWinnerAt cells m r == some Winner.p2)).length) := by
  revert hall
  induction rs generalizing acc with
  | nil =>
    intro _
    simp
  | cons r rest ih =>
    intro hall
    obtain ⟨a, b, k, hr⟩ := (rowComplete_iff cells r).mp
      (hall r (List.mem_cons_self _ _))
    have hsr : specRowResult cells m r = some ⟨r, specRowWinner a b k m,
        specRowRule k m, a, b, k, m, isEven m == isEven k⟩ := by
      unfold specRowResult
      rw [hr]
    have hwa : specRowWinnerAt cells m r = some (specRowWinner a b k m) := by
      unfold specRowWinnerAt
      rw [hsr]
      rfl
    rw [List.foldl_cons, calcRow_eval cells m acc r a b k hr,
      ih _ (fun q hq => hall q (List.mem_cons_of_mem _ hq)),
      List.filterMap_cons, hsr, List.filter_cons, List.filter_cons, hwa]
    cases hW : specRowWinner a b k m <;>
      simp [hW, Prod.ext_iff, List.append_assoc] <;> omega

end Stig

namespace Stig

/-- C1: on every fully filled board of distinct numbers, the Rule Engine
decides each row by the parity rule — parity match means low-wins,
mismatch means high-wins, a row ties exactly when the slot values are
equal — and the overall winner is whoever has strictly more row wins,
else tie. -/
theorem calculateResults_matches_parity_spec (v : Nat → Nat)
    (hdist : ∀ i, i < 10 → ∀ j, j < 10 → i ≠ j → v i ≠ v j) :
    ∃ res, calculateResults (fullBoard v) = .ok res ∧
      res.rowResults.length = 3 ∧
      (∀ r, r < 3 →
        res.rowResults.get? r = some ⟨r,
          specRowWinner (v (3 * r)) (v (3 * r + 1)) (v (3 * r + 2)) (v 9),
          specRowRule (v (3 * r + 2)) (v 9),
          v (3 * r), v (3 * r + 1), v (3 * r + 2), v 9,
          isEven (v 9) == isEven (v (3 * r + 2))⟩ ∧
        (specRowWinner (v (3 * r)) (v (3 * r + 1)) (v (3 * r + 2)) (v 9) =
            .tie ↔ v (3 * r) = v (3 * r + 1))) ∧
      res.p1Score = (([0, 1, 2] : List Nat).filter (fun r =>
        specRowWinnerAt (fullBoard v) (v 9) r == some Winner.p1)).length ∧
      res.p2Score = (([0, 1, 2] : List Nat).filter (fun r =>
        specRowWinnerAt (fullBoard v) (v 9) r == some Winner.p2)).length ∧
      (res.p2Score < res.p1Score → res.overallWinner = .p1) ∧
      (res.p1Score < res.p2Score → res.overallWinner = .p2) ∧
      (res.p1Score = res.p2Score → res.overallWinner = .tie) := by
  have h0 : rowLookup (fullBoard v) 0 = (some (v 0), some (v 1), some (v 2)) :=
    rfl
  have h1 : rowLookup (fullBoard v) 1 = (some (v 3), some (v 4), some (v 5)) :=
    rfl
  have h2 : rowLookup (fullBoard v) 2 = (some (v 6), some (v 7), some (v 8)) :=
    rfl
  have hm : masterValue (fullBoard v) = some (v 9) := rfl
  have hall : ∀ r ∈ ([0, 1, 2] : List Nat),
      rowComplete (fullBoard v) r = true := by
    intro r hr
    fin_cases hr
    · unfold rowComplete
      rw [h0]
    · unfold rowComplete
      rw [h1]
    · unfold rowComplete
      rw [h2]
  have hfold := calcRow_fold_eval (fullBoard v) (v 9) [0, 1, 2] ([], 0, 0) hall
  have hcalc : calculateResults (fullBoard v) =
      .ok ⟨(([0, 1, 2] : List Nat).foldl
              (calcRow (fullBoard v) (v 9)) ([], 0, 0)).1,
            (([0, 1, 2] : List Nat).foldl
              (calcRow (fullBoard v) (v 9)) ([], 0, 0)).2.1,
            (([0, 1, 2] : List Nat).foldl
              (calcRow (fullBoard v) (v 9)) ([], 0, 0)).2.2,
            if (([0, 1, 2] : List Nat).foldl
                  (calcRow (fullBoard v) (v 9)) ([], 0, 0)).2.1 >
                (([0, 1, 2] : List Nat).foldl
                  (calcRow (fullBoard v) (v 9)) ([], 0, 0)).2.2 then
              Winner.p1
            else if (([0, 1, 2] : List Nat).foldl
                  (calcRow (fullBoard v) (v 9)) ([], 0, 0)).2.2 >
                (([0, 1, 2] : List Nat).foldl
                  (calcRow (fullBoard v) (v 9)) ([], 0, 0)).2.1 then
              Winner.p2
            else Winner.tie⟩ := by
    simp only [calculateResults, hm]
  rw [hfold] at hcalc
  have hsr0 : specRowResult (fullBoard v) (v 9) 0 =
      some ⟨0, specRowWinner (v 0) (v 1) (v 2) (v 9),
        specRowRule (v 2) (v 9), v 0, v 1, v 2, v 9,
        isEven (v 9) == isEven (v 2)⟩ := by
    unfold specRowResult
    rw [h0]
  have hsr1 : specRowResult (fullBoard v) (v 9) 1 =
      some ⟨1, specRowWinner (v 3) (v 4) (v 5) (v 9),
        specRowRule (v 5) (v 9), v 3, v 4, v 5, v 9,
        isEven (v 9) == isEven (v 5)⟩ := by
    unfold specRowResult
    rw [h1]
  have hsr2 : specRowResult (fullBoard v) (v 9) 2 =
      some ⟨2, specRowWinner (v 6) (v 7) (v 8) (v 9),
        specRowRule (v 8) (v 9), v 6, v 7, v 8, v 9,
        isEven (v 9) == isEven (v 8)⟩ := by
    unfold specRowResult
    rw [h2]
  rw [List.filterMap_cons, List.filterMap_cons, List.filterMap_cons,
    List.filterMap_nil, hsr0, hsr1, hsr2] at hcalc
  refine ⟨_, hcalc, ?_, ?_, ?_, ?_, ?_, ?_, ?_⟩
  · simp
  · intro r hr
    interval_cases r
    · exact ⟨by simp, specRowWinner_tie_iff _ _ _ _⟩
    · exact ⟨by simp, specRowWinner_tie_iff _ _ _ _⟩
    · exact ⟨by simp, specRowWinner_tie_iff _ _ _ _⟩
  · simp
  · simp
  · intro h
    simp only at h ⊢
    rw [if_pos (by omega)]
  · intro h
    simp only at h ⊢
    rw [if_neg (by omega), if_pos (by omega)]
  · intro h
    simp only at h ⊢
    rw [if_neg (by omega), if_neg (by omega)]

end Stig

namespace Stig

/-- Witness for the C1 theorem at the concrete permutation
[3,7,6,1,2,5,8,9,10,4] (master key 4): the engine returns a result and
p1 wins overall. -/
theorem calculateResults_matches_parity_spec_witness :
    ∃ res, calculateResults (fullBoard (fun i =>
      [3, 7, 6, 1, 2, 5, 8, 9, 10, 4].getD i 0)) = .ok res ∧
      res.overallWinner = .p1 := by
  obtain ⟨res, hres, -, -, hs1, hs2, hgt, -, -⟩ :=
    calculateResults_matches_parity_spec
      (fun i => [3, 7, 6, 1, 2, 5, 8, 9, 10, 4].getD i 0) (by decide)
  refine ⟨res, hres, hgt ?_⟩
  rw [hs1, hs2]
  decide

end Stig

namespace Stig

/-- A row with any unfilled component contributes nothing to the partial
score. -/
theorem rowInc_eq_zero_of_none (cells : List CellData) (mE : Option Bool)
    (r : Nat)
    (h : (rowLookup cells r).1 = none ∨ (rowLookup cells r).2.1 = none ∨
      (rowLookup cells r).2.2 = none ∨ mE = none) :
    rowInc cells mE r = (0, 0) := by
  unfold rowInc
  rcases hr : rowLookup cells r with ⟨o1, o2, o3⟩
  rw [hr] at h
  cases o1 <;> cases o2 <;> cases o3 <;> cases mE <;> simp_all

/-- `rowInc` depends on the board only through the row lookup. -/
theorem rowInc_congr (cells cells2 : List CellData) (mE : Option Bool)
    (r : Nat) (h : rowLookup cells r = rowLookup cells2 r) :
    rowInc cells mE r = rowInc cells2 mE r := by
  unfold rowInc
  rw [h]

/-- Placing into a non-master cell leaves the master value alone. -/
theorem masterValue_place_lt9 (v : Nat → Option Nat) (i n : Nat)
    (h9 : i < 9) :
    masterValue (placeNumber (partialBoard v) i n) = v 9 := by
  interval_cases i <;> rfl

/-- Placing into a cell of one row leaves the other rows' lookups
alone. -/
theorem rowLookup_place_other (v : Nat → Option Nat) (i n r : Nat)
    (h9 : i < 9) (hr3 : r < 3) (hne : r ≠ i / 3) :
    rowLookup (placeNumber (partialBoard v) i n) r =
      rowLookup (partialBoard v) r := by
  interval_cases i <;> interval_cases r <;> first | rfl | (exfalso; omega)

/-- The row a still-empty cell belongs to contributes nothing before the
placement. -/
theorem rowInc_partial_zero (v : Nat → Option Nat) (mE : Option Bool)
    (i : Nat) (h9 : i < 9) (hempty : v i = none) :
    rowInc (partialBoard v) mE (i / 3) = (0, 0) := by
  interval_cases i <;>
    exact rowInc_eq_zero_of_none _ _ _ (by
      first
      | exact Or.inl hempty
      | exact Or.inr (Or.inl hempty)
      | exact Or.inr (Or.inr (Or.inl hempty)))

end Stig

namespace Stig

/-- C7 amended: a single placement into a row cell (p1 slot, p2 slot or
row key — not the master key) that completes that previously-undetermined
row in p2's favor raises the p2-minus-p1 partial score by exactly one,
and in particular never decreases it.  The monotonicity claimed by the
spec fails only for the master-key placement, which can complete several
rows at once (see the counterexample). -/
theorem evaluatePartial_gains_completed_row (v : Nat → Option Nat)
    (i n : Nat) (h9 : i < 9) (hempty : v i = none)
    (hwin : rowInc (placeNumber (partialBoard v) i n)
        ((masterValue (placeNumber (partialBoard v) i n)).map isEven)
        (i / 3) = (0, 1)) :
    evaluatePartialBoard (placeNumber (partialBoard v) i n) =
      evaluatePartialBoard (partialBoard v) + 1 ∧
    evaluatePartialBoard (partialBoard v) ≤
      evaluatePartialBoard (placeNumber (partialBoard v) i n) := by
  have hmb : masterValue (partialBoard v) = v 9 := rfl
  rw [masterValue_place_lt9 v i n h9] at hwin
  have hz := rowInc_partial_zero v ((v 9).map isEven) i h9 hempty
  have heq : evaluatePartialBoard (placeNumber (partialBoard v) i n) =
      evaluatePartialBoard (partialBoard v) + 1 := by
    simp only [evaluatePartialBoard, List.foldl, hmb,
      masterValue_place_lt9 v i n h9]
    rcases (by omega : i / 3 = 0 ∨ i / 3 = 1 ∨ i / 3 = 2) with h | h | h
    · rw [h] at hwin hz
      rw [hwin, hz,
        rowInc_congr _ _ _ 1 (rowLookup_place_other v i n 1 h9 (by omega)
          (by omega)),
        rowInc_congr _ _ _ 2 (rowLookup_place_other v i n 2 h9 (by omega)
          (by omega))]
      simp
      omega
    · rw [h] at hwin hz
      rw [hwin, hz,
        rowInc_congr _ _ _ 0 (rowLookup_place_other v i n 0 h9 (by omega)
          (by omega)),
        rowInc_congr _ _ _ 2 (rowLookup_place_other v i n 2 h9 (by omega)
          (by omega))]
      simp
      omega
    · rw [h] at hwin hz
      rw [hwin, hz,
        rowInc_congr _ _ _ 0 (rowLookup_place_other v i n 0 h9 (by omega)
          (by omega)),
        rowInc_congr _ _ _ 1 (rowLookup_place_other v i n 1 h9 (by omega)
          (by omega))]
      simp
      omega
  exact ⟨heq, by rw [heq]; omega⟩

/-- Witness for the C7 amended theorem: with master 2 and row key 4
(low-wins), placing 1 into the empty p2 slot of row 0 against p1's 10
completes the row for p2 and raises the score from 0 to 1. -/
theorem evaluatePartial_gains_completed_row_witness :
    evaluatePartialBoard (placeNumber (partialBoard (fun j =>
      if j = 0 then some 10 else if j = 2 then some 4 else
      if j = 9 then some 2 else none)) 1 1) =
    evaluatePartialBoard (partialBoard (fun j =>
      if j = 0 then some 10 else if j = 2 then some 4 else
      if j = 9 then some 2 else none)) + 1 :=
  (evaluatePartial_gains_completed_row (fun j =>
      if j = 0 then some 10 else if j = 2 then some 4 else
      if j = 9 then some 2 else none) 1 1
    (by decide) (by decide) (by decide)).1

end Stig

namespace Stig

/-- A fold preserves any invariant its steps preserve. -/
theorem foldl_preserve {α β : Type} (P : β → Prop) (f : β → α → β)
    (l : List α) (b : β)
    (hstep : ∀ b0 a, a ∈ l → P b0 → P (f b0 a)) (hb : P b) :
    P (l.foldl f b) := by
  induction l generalizing b with
  | nil => exact hb
  | cons a rest ih =>
    exact ih _
      (fun b0 a0 ha0 hb0 => hstep b0 a0 (List.mem_cons_of_mem _ ha0) hb0)
      (hstep b a (List.mem_cons_self _ _) hb)

/-- In-range list indexing with a default stays inside the list. -/
theorem getD_mem_of_lt {α : Type} (l : List α) (n : Nat) (d : α)
    (h : n < l.length) : l.getD n d ∈ l := by
  induction l generalizing n with
  | nil => simp at h
  | cons a rest ih =>
    cases n with
    | zero => simp
    | succ n2 =>
      rw [List.getD_cons_succ]
      exact List.mem_cons_of_mem _ (ih n2 (by simpa using h))

/-- A random index into a nonempty list is in range. -/
theorem randIndex_lt (q : ℚ) (len : Nat) (h0 : 0 ≤ q) (h1 : q < 1)
    (hlen : 0 < len) : randIndex q len < len := by
  have hmul : q * (len : ℚ) < len := by
    calc q * (len : ℚ) < 1 * len := by
          apply mul_lt_mul_of_pos_right h1
          exact_mod_cast hlen
      _ = len := one_mul _
  have hf : ⌊q * (len : ℚ)⌋ < (len : ℤ) := Int.floor_lt.mpr (by
    exact_mod_cast hmul)
  have hnn : (0 : ℤ) ≤ ⌊q * (len : ℚ)⌋ := Int.floor_nonneg.mpr
    (mul_nonneg h0 (by positivity))
  unfold randIndex
  omega

/-- `getRandomMove` proposes an empty cell of the list and an unused
number, for any in-range random source. -/
theorem getRandomMove_valid (emptyCells : List CellData)
    (availableNums : List Nat) (rng : Nat → ℚ) (k : Nat)
    (hwf : RngWF rng) (he : emptyCells ≠ []) (ha : availableNums ≠ []) :
    (getRandomMove emptyCells availableNums rng k).cellId ∈
      emptyCells.map CellData.id ∧
    (getRandomMove emptyCells availableNums rng k).number ∈ availableNums := by
  have hlt1 := randIndex_lt (rng k) availableNums.length (hwf k).1 (hwf k).2
    (List.length_pos.mpr ha)
  have hlt2 := randIndex_lt (rng (k + 1)) emptyCells.length (hwf (k + 1)).1
    (hwf (k + 1)).2 (List.length_pos.mpr he)
  unfold getRandomMove
  constructor
  · exact List.mem_map_of_mem CellData.id (getD_mem_of_lt _ _ _ hlt2)
  · exact getD_mem_of_lt _ _ _ hlt1

end Stig

namespace Stig

/-- Placement does not change the cell ids. -/
theorem placeNumber_map_id (cells : List CellData) (cid n : Nat) :
    (placeNumber cells cid n).map CellData.id = cells.map CellData.id := by
  induction cells with
  | nil => rfl
  | cons c rest ih =>
    rw [placeNumber_cons, List.map_cons, List.map_cons]
    by_cases hc : (c.id == cid) = true
    · rw [if_pos hc]
      exact congrArg _ ih
    · rw [if_neg hc]
      exact congrArg _ ih

/-- Removing one occurrence from a duplicate-free list shortens it by
one. -/
theorem length_filter_ne_of_nodup (nums : List Nat) (num : Nat)
    (hnd : nums.Nodup) (hm : num ∈ nums) :
    (nums.filter (fun n => n != num)).length = nums.length - 1 := by
  induction nums with
  | nil => cases hm
  | cons a rest ih =>
    obtain ⟨hnotin, hndr⟩ := List.nodup_cons.mp hnd
    rcases List.mem_cons.mp hm with rfl | hm2
    · have hself : rest.filter (fun n => n != num) = rest := by
        apply List.filter_eq_self.mpr
        intro b hb
        have : b ≠ num := fun h => hnotin (h ▸ hb)
        simpa using this
      simp [List.filter_cons, hself]
    · have hane : a ≠ num := fun h => hnotin (h ▸ hm2)
      have hlen := ih hndr hm2
      have hpos : 0 < rest.length := List.length_pos.mpr
        (List.ne_nil_of_mem hm2)
      simp only [List.filter_cons]
      rw [if_pos (by simpa using hane)]
      simp only [List.length_cons, hlen]
      omega

/-- Placing at an id absent from the board is a no-op. -/
theorem placeNumber_eq_self (rest : List CellData) (cid n : Nat)
    (h : ∀ c ∈ rest, c.id ≠ cid) : placeNumber rest cid n = rest := by
  induction rest with
  | nil => rfl
  | cons a l ih =>
    rw [placeNumber_cons,
      if_neg (by simpa using h a (List.mem_cons_self _ _)),
      ih (fun c hc => h c (List.mem_cons_of_mem _ hc))]

/-- Filling one empty cell (unique id) reduces the number of empty cells
by exactly one. -/
theorem length_filter_empty_place (cells : List CellData) (cid n : Nat)
    (hid : (cells.map CellData.id).Nodup)
    (hcell : ∃ c ∈ cells, c.value = none ∧ c.id = cid) :
    ((placeNumber cells cid n).filter (fun c => c.value == none)).length =
      (cells.filter (fun c => c.value == none)).length - 1 := by
  induction cells with
  | nil => simp at hcell
  | cons c rest ih =>
    simp only [List.map_cons] at hid
    obtain ⟨hnotin, hndr⟩ := List.nodup_cons.mp hid
    rw [placeNumber_cons]
    by_cases hc : (c.id == cid) = true
    · have hceq : c.id = cid := by simpa using hc
      have hcnone : c.value = none := by
        obtain ⟨c2, hc2mem, hc2none, hc2id⟩ := hcell
        rcases List.mem_cons.mp hc2mem with rfl | hc2rest
        · exact hc2none
        · have hmm : c.id ∈ rest.map CellData.id := by
            rw [hceq, ← hc2id]
            exact List.mem_map_of_mem CellData.id hc2rest
          exact absurd hmm hnotin
      have hrest : placeNumber rest cid n = rest := by
        apply placeNumber_eq_self
        intro c2 hc2 hc2id
        exact hnotin (by
          rw [hceq, ← hc2id]
          exact List.mem_map_of_mem CellData.id hc2)
      rw [if_pos hc, hrest]
      simp [List.filter_cons, hcnone]
    · have hcne : c.id ≠ cid := by simpa using hc
      obtain ⟨c2, hc2mem, hc2none, hc2id⟩ := hcell
      rcases List.mem_cons.mp hc2mem with rfl | hc2rest
      · exact absurd hc2id hcne
      · have hihr := ih hndr ⟨c2, hc2rest, hc2none, hc2id⟩
        have hpos : 0 < (rest.filter (fun c => c.value == none)).length := by
          apply List.length_pos.mpr
          apply List.ne_nil_of_mem
          exact List.mem_filter.mpr ⟨hc2rest, by simp [hc2none]⟩
        rw [if_neg hc]
        simp only [List.filter_cons]
        by_cases hcv : (c.value == none) = true <;>
          simp only [hcv, if_pos, if_neg, Bool.false_eq_true, if_false,
            if_true, List.length_cons, hihr] <;>
          omega

end Stig


namespace Stig

/-- `Math.max` with negative infinity on the left is the identity. -/
theorem JNum.max_negInf (x : JNum) : JNum.max .negInf x = x := by
  cases x <;> rfl

/-- `Math.min` with positive infinity on the left is the identity. -/
theorem JNum.min_posInf (x : JNum) : JNum.min .posInf x = x := by
  cases x <;> rfl

/-- The maximum of two finite scores is finite. -/
theorem JNum.max_fin_fin (a b : Int) :
    ∃ z, JNum.max (.fin a) (.fin b) = .fin z := by
  unfold JNum.max
  split <;> exact ⟨_, rfl⟩

/-- The minimum of two finite scores is finite. -/
theorem JNum.min_fin_fin (a b : Int) :
    ∃ z, JNum.min (.fin a) (.fin b) = .fin z := by
  unfold JNum.min
  split <;> exact ⟨_, rfl⟩

/-- On a board with duplicate-free ids, a duplicate-free number pool at
least as large as the set of empty cells, minimax always produces a
finite score — never an infinity. -/
theorem minimax_fin (depth : Nat) :
    ∀ (cells : List CellData) (nums : List Nat) (alpha beta : JNum)
      (isMax : Bool),
    (cells.map CellData.id).Nodup → nums.Nodup →
    (cells.filter (fun c => c.value == none)).length ≤ nums.length →
    ∃ z, minimax depth cells nums alpha beta isMax = .fin z := by
  induction depth with
  | zero =>
    intro cells nums alpha beta isMax _ _ _
    simp only [minimax]
    split
    · exact ⟨_, rfl⟩
    · exact ⟨_, rfl⟩
  | succ depth2 ih =>
    intro cells nums alpha beta isMax hid hnd hlen
    simp only [minimax]
    split
    · exact ⟨_, rfl⟩
    · rename_i hne0
      have hene : cells.filter (fun c => c.value == none) ≠ [] := by
        intro hcon
        exact hne0 (by rw [hcon]; rfl)
      have hel : 0 < (cells.filter (fun c => c.value == none)).length :=
        Nat.pos_of_ne_zero (by simpa using hne0)
      have hnl : 0 < nums.length := lt_of_lt_of_le hel hlen
      have hchild : ∀ (cell : CellData) (num : Nat) (a b : JNum) (mx : Bool),
          cell ∈ cells.filter (fun c => c.value == none) → num ∈ nums →
          ∃ z, minimax depth2 (placeNumber cells cell.id num)
            (nums.filter (fun n => n != num)) a b mx = .fin z := by
        intro cell num a b mx hc hn
        obtain ⟨hcmem, hcval⟩ := List.mem_filter.mp hc
        apply ih
        · rw [placeNumber_map_id]
          exact hid
        · exact hnd.filter _
        · rw [length_filter_empty_place cells cell.id num hid
            ⟨cell, hcmem, by simpa using hcval, rfl⟩,
            length_filter_ne_of_nodup nums num hnd hn]
          omega
      rcases List.exists_cons_of_ne_nil hene with ⟨e, es, hEC⟩
      have heEC : e ∈ cells.filter (fun c => c.value == none) := by
        rw [hEC]
        exact List.mem_cons_self _ _
      have hesEC : ∀ c ∈ es, c ∈ cells.filter (fun c => c.value == none) := by
        intro c hc
        rw [hEC]
        exact List.mem_cons_of_mem _ hc
      obtain ⟨m0, ms, rfl⟩ := List.exists_cons_of_ne_nil
        (List.length_pos.mp hnl)
      have hm0 : m0 ∈ m0 :: ms := List.mem_cons_self _ _
      split
      · -- maximizing branch
        rw [hEC, List.foldl_cons]
        refine foldl_preserve
          (fun st : JNum × JNum × Bool => ∃ z, st.1 = JNum.fin z) _ es _ ?_ ?_
        · intro st cell hces hst
          dsimp only
          split
          · exact hst
          · refine foldl_preserve
              (fun st : JNum × JNum × Bool => ∃ z, st.1 = JNum.fin z)
              _ (m0 :: ms) _ ?_ hst
            intro st2 num hnum hst2
            dsimp only
            split
            · exact hst2
            · obtain ⟨z1, hz1⟩ := hst2
              obtain ⟨z2, hz2⟩ :=
                hchild cell num st2.2.1 beta false (hesEC cell hces) hnum
              dsimp only
              rw [hz1, hz2]
              exact JNum.max_fin_fin z1 z2
        · dsimp only
          rw [if_neg (by simp), List.foldl_cons]
          refine foldl_preserve
            (fun st : JNum × JNum × Bool => ∃ z, st.1 = JNum.fin z) _ ms _ ?_ ?_
          · intro st2 num hnum hst2
            dsimp only
            split
            · exact hst2
            · obtain ⟨z1, hz1⟩ := hst2
              obtain ⟨z2, hz2⟩ := hchild e num st2.2.1 beta false heEC
                (List.mem_cons_of_mem _ hnum)
              dsimp only
              rw [hz1, hz2]
              exact JNum.max_fin_fin z1 z2
          · dsimp only
            rw [if_neg (by simp)]
            obtain ⟨z2, hz2⟩ := hchild e m0 alpha beta false heEC hm0
            dsimp only
            rw [hz2, JNum.max_negInf]
            exact ⟨z2, rfl⟩
      · -- minimizing branch
        rw [hEC, List.foldl_cons]
        refine foldl_preserve
          (fun st : JNum × JNum × Bool => ∃ z, st.1 = JNum.fin z) _ es _ ?_ ?_
        · intro st cell hces hst
          dsimp only
          split
          · exact hst
          · refine foldl_preserve
              (fun st : JNum × JNum × Bool => ∃ z, st.1 = JNum.fin z)
              _ (m0 :: ms) _ ?_ hst
            intro st2 num hnum hst2
            dsimp only
            split
            · exact hst2
            · obtain ⟨z1, hz1⟩ := hst2
              obtain ⟨z2, hz2⟩ :=
                hchild cell num alpha st2.2.1 true (hesEC cell hces) hnum
              dsimp only
              rw [hz1, hz2]
              exact JNum.min_fin_fin z1 z2
        · dsimp only
          rw [if_neg (by simp), List.foldl_cons]
          refine foldl_preserve
            (fun st : JNum × JNum × Bool => ∃ z, st.1 = JNum.fin z) _ ms _ ?_ ?_
          · intro st2 num hnum hst2
            dsimp only
            split
            · exact hst2
            · obtain ⟨z1, hz1⟩ := hst2
              obtain ⟨z2, hz2⟩ := hchild e num alpha st2.2.1 true heEC
                (List.mem_cons_of_mem _ hnum)
              dsimp only
              rw [hz1, hz2]
              exact JNum.min_fin_fin z1 z2
          · dsimp only
            rw [if_neg (by simp)]
            obtain ⟨z2, hz2⟩ := hchild e m0 alpha beta true heEC hm0
            dsimp only
            rw [hz2, JNum.min_posInf]
            exact ⟨z2, rfl⟩

end Stig

namespace Stig

/-- `getMinimaxMove` is the root fold followed by the random fallback. -/
theorem getMinimaxMove_eq (cells : List CellData) (nums : List Nat)
    (maxDepth : Nat) (rng : Nat → ℚ) :
    getMinimaxMove cells nums maxDepth rng =
      match (minimaxRootFold cells nums maxDepth).2.1 with
      | some m => m
      | none =>
        getRandomMove (cells.filter (fun c => c.value == none)) nums rng 0 :=
  rfl

/-- Any move recorded by the root fold pairs an empty cell with a pool
number. -/
theorem minimaxRootFold_valid (cells : List CellData) (nums : List Nat)
    (maxDepth : Nat) :
    ∀ m, (minimaxRootFold cells nums maxDepth).2.1 = some m →
      m.cellId ∈ (cells.filter (fun c => c.value == none)).map CellData.id ∧
      m.number ∈ nums := by
  simp only [minimaxRootFold]
  refine foldl_preserve
    (fun st : JNum × Option Move × JNum × Bool => ∀ m, st.2.1 = some m →
      m.cellId ∈ (cells.filter (fun c => c.value == none)).map CellData.id ∧
      m.number ∈ nums) _ _ _ ?_ ?_
  · intro st cell hcell hst
    dsimp only
    split
    · exact hst
    · refine foldl_preserve
        (fun st : JNum × Option Move × JNum × Bool => ∀ m, st.2.1 = some m →
          m.cellId ∈ (cells.filter (fun c => c.value == none)).map
            CellData.id ∧
          m.number ∈ nums) _ _ _ ?_ hst
      intro st2 num hnum hst2
      dsimp only
      split
      · exact hst2
      · intro m hm
        dsimp only at hm
        split at hm
        · simp only [Option.some.injEq] at hm
          subst hm
          exact ⟨List.mem_map_of_mem CellData.id hcell, hnum⟩
        · exact hst2 m hm
  · intro m hm
    simp at hm

end Stig

namespace Stig

/-- On a real position (duplicate-free ids and numbers, at least one
empty cell, at least as many pool numbers as empty cells), the root fold
always records a best move: the very first examined pair scores finitely
and beats the initial negative-infinity best score, and a recorded move
is never discarded. -/
theorem minimaxRootFold_some (cells : List CellData) (nums : List Nat)
    (maxDepth : Nat)
    (hid : (cells.map CellData.id).Nodup) (hnd : nums.Nodup)
    (he : cells.filter (fun c => c.value == none) ≠ [])
    (hlen : (cells.filter (fun c => c.value == none)).length ≤ nums.length) :
    ∃ m, (minimaxRootFold cells nums maxDepth).2.1 = some m := by
  have hchild : ∀ (cell : CellData) (num : Nat) (a b : JNum) (mx : Bool),
      cell ∈ cells.filter (fun c => c.value == none) → num ∈ nums →
      ∃ z, minimax (maxDepth - 1) (placeNumber cells cell.id num)
        (nums.filter (fun n => n != num)) a b mx = .fin z := by
    intro cell num a b mx hc hn
    obtain ⟨hcmem, hcval⟩ := List.mem_filter.mp hc
    apply minimax_fin
    · rw [placeNumber_map_id]
      exact hid
    · exact hnd.filter _
    · rw [length_filter_empty_place cells cell.id num hid
        ⟨cell, hcmem, by simpa using hcval, rfl⟩,
        length_filter_ne_of_nodup nums num hnd hn]
      have h1 : 0 < (cells.filter (fun c => c.value == none)).length :=
        List.length_pos.mpr he
      omega
  have hnl : 0 < nums.length :=
    lt_of_lt_of_le (List.length_pos.mpr he) hlen
  rcases List.exists_cons_of_ne_nil he with ⟨e, es, hEC⟩
  have heEC : e ∈ cells.filter (fun c => c.value == none) := by
    rw [hEC]
    exact List.mem_cons_self _ _
  obtain ⟨m0, ms, rfl⟩ := List.exists_cons_of_ne_nil (List.length_pos.mp hnl)
  simp only [minimaxRootFold]
  rw [hEC, List.foldl_cons]
  refine foldl_preserve
    (fun st : JNum × Option Move × JNum × Bool => ∃ m, st.2.1 = some m)
    _ es _ ?_ ?_
  · intro st cell hces hst
    dsimp only
    split
    · exact hst
    · refine foldl_preserve
        (fun st : JNum × Option Move × JNum × Bool => ∃ m, st.2.1 = some m)
        _ (m0 :: ms) _ ?_ hst
      intro st2 num hnum hst2
      dsimp only
      split
      · exact hst2
      · obtain ⟨m1, hm1⟩ := hst2
        dsimp only
        split
        · exact ⟨_, rfl⟩
        · exact ⟨m1, hm1⟩
  · dsimp only
    rw [if_neg (by simp), List.foldl_cons]
    refine foldl_preserve
      (fun st : JNum × Option Move × JNum × Bool => ∃ m, st.2.1 = some m)
      _ ms _ ?_ ?_
    · intro st2 num hnum hst2
      dsimp only
      split
      · exact hst2
      · obtain ⟨m1, hm1⟩ := hst2
        dsimp only
        split
        · exact ⟨_, rfl⟩
        · exact ⟨m1, hm1⟩
    · obtain ⟨z2, hz2⟩ := hchild e m0 JNum.negInf JNum.posInf false heEC
        (List.mem_cons_self _ _)
      dsimp only
      rw [if_neg (by simp), hz2]
      rw [if_pos (show JNum.lt JNum.negInf (JNum.fin z2) = true from rfl)]
      exact ⟨_, rfl⟩

end Stig

namespace Stig

/-- The minimax move does not depend on the random source at all on real
positions: the fallback branch is dead. -/
theorem getMinimaxMove_rng_independent (cells : List CellData)
    (nums : List Nat) (maxDepth : Nat) (rng1 rng2 : Nat → ℚ)
    (hid : (cells.map CellData.id).Nodup) (hnd : nums.Nodup)
    (he : cells.filter (fun c => c.value == none) ≠ [])
    (hlen : (cells.filter (fun c => c.value == none)).length ≤ nums.length) :
    getMinimaxMove cells nums maxDepth rng1 =
      getMinimaxMove cells nums maxDepth rng2 := by
  obtain ⟨m, hm⟩ := minimaxRootFold_some cells nums maxDepth hid hnd he hlen
  rw [getMinimaxMove_eq, getMinimaxMove_eq, hm]

/-- The numbers 1..10 never repeat in the unused pool. -/
theorem getAvailableNumbers_nodup (cells : List CellData) :
    (getAvailableNumbers cells).Nodup := by
  apply List.Nodup.filter
  exact (List.nodup_range 10).map (fun a b => by omega)

/-- C8: at hard difficulty with at most 8 unused numbers (past the
opening fallback), `getBestMove` is a function of the board alone: two
invocations with arbitrary — possibly different — random sources return
the same move.  The hypotheses say the board's cell ids are
duplicate-free and the empty cells do not outnumber the unused numbers,
both true of every reachable board. -/
theorem getBestMove_hard_deterministic (cells : List CellData)
    (rng1 rng2 : Nat → ℚ)
    (hid : (cells.map CellData.id).Nodup)
    (h8 : (getAvailableNumbers cells).length ≤ 8)
    (hlen : (cells.filter (fun c => c.value == none)).length ≤
      (getAvailableNumbers cells).length) :
    getBestMove cells .hard rng1 = getBestMove cells .hard rng2 := by
  simp only [getBestMove]
  split
  · rfl
  · rename_i hnz
    have he : cells.filter (fun c => c.value == none) ≠ [] := by
      intro hcon
      exact hnz (by rw [hcon]; simp)
    have hgt : ¬((getAvailableNumbers cells).length > 8) := by omega
    rw [if_neg hgt, if_neg hgt]
    exact congrArg some (getMinimaxMove_rng_independent cells
      (getAvailableNumbers cells) _ rng1 rng2 hid
      (getAvailableNumbers_nodup cells) he hlen)

end Stig

namespace Stig

/-- Witness for the C8 theorem: on a board with eight placed numbers,
hard mode proposes the same move under two different random sources. -/
theorem getBestMove_hard_deterministic_witness :
    getBestMove (partialBoard (fun i => if i < 8 then some (i + 1) else none))
      .hard (fun _ => 0) =
    getBestMove (partialBoard (fun i => if i < 8 then some (i + 1) else none))
      .hard (fun _ => 1 / 2) :=
  getBestMove_hard_deterministic
    (partialBoard (fun i => if i < 8 then some (i + 1) else none))
    (fun _ => 0) (fun _ => 1 / 2) (by decide) (by decide) (by decide)

/-- Any move `findBestGreedyMove` returns pairs an empty cell with a
pool number. -/
theorem findBestGreedyMove_valid (currentCells emptyCells : List CellData)
    (availableNums : List Nat) :
    ∀ m, findBestGreedyMove currentCells emptyCells availableNums = some m →
      m.cellId ∈ emptyCells.map CellData.id ∧ m.number ∈ availableNums := by
  simp only [findBestGreedyMove]
  refine foldl_preserve
    (fun acc : JNum × Option Move => ∀ m, acc.2 = some m →
      m.cellId ∈ emptyCells.map CellData.id ∧ m.number ∈ availableNums)
    _ _ _ ?_ ?_
  · intro acc cell hcell hacc
    refine foldl_preserve
      (fun acc : JNum × Option Move => ∀ m, acc.2 = some m →
        m.cellId ∈ emptyCells.map CellData.id ∧ m.number ∈ availableNums)
      _ _ _ ?_ hacc
    intro acc2 num hnum hacc2
    intro m hm
    simp only [greedyStep] at hm
    split at hm
    · simp only [Option.some.injEq] at hm
      subst hm
      exact ⟨List.mem_map_of_mem CellData.id hcell, hnum⟩
    · exact hacc2 m hm
  · intro m hm
    simp at hm

/-- Membership in the empty-cell projection, in the claim's phrasing. -/
theorem cellId_mem_claim (cells : List CellData) (x : Nat)
    (h : x ∈ (cells.filter (fun c => c.value == none)).map CellData.id) :
    ∃ c ∈ cells, c.value = none ∧ c.id = x := by
  obtain ⟨c, hc, rfl⟩ := List.mem_map.mp h
  obtain ⟨hmem, hval⟩ := List.mem_filter.mp hc
  exact ⟨c, hmem, by simpa using hval, rfl⟩

end Stig

namespace Stig

/-- C10: whenever the board still has an empty cell and an unused
number, `getBestMove` at every difficulty proposes a move (never none)
whose cell is empty on that board and whose number is one of the unused
numbers 1..10, for any in-range random source. -/
theorem getBestMove_valid (cells : List CellData) (difficulty : Difficulty)
    (rng : Nat → ℚ) (hwf : RngWF rng)
    (ha : getAvailableNumbers cells ≠ [])
    (he : cells.filter (fun c => c.value == none) ≠ []) :
    ∃ m, getBestMove cells difficulty rng = some m ∧
      (∃ c ∈ cells, c.value = none ∧ c.id = m.cellId) ∧
      m.number ∈ getAvailableNumbers cells := by
  have hrand : ∀ k,
      (getRandomMove (cells.filter (fun c => c.value == none))
        (getAvailableNumbers cells) rng k).cellId ∈
        (cells.filter (fun c => c.value == none)).map CellData.id ∧
      (getRandomMove (cells.filter (fun c => c.value == none))
        (getAvailableNumbers cells) rng k).number ∈
        getAvailableNumbers cells :=
    fun k => getRandomMove_valid _ _ rng k hwf he ha
  have hcond : (((getAvailableNumbers cells).length == 0) ||
      ((cells.filter (fun c => c.value == none)).length == 0)) ≠ true := by
    intro hcon
    rcases Bool.or_eq_true_iff.mp hcon with h | h
    · exact ha (List.length_eq_zero.mp (by simpa using h))
    · exact he (List.length_eq_zero.mp (by simpa using h))
  cases difficulty with
  | easy =>
    simp only [getBestMove]
    rw [if_neg hcond]
    exact ⟨_, rfl, cellId_mem_claim cells _ (hrand 0).1, (hrand 0).2⟩
  | medium =>
    simp only [getBestMove]
    rw [if_neg hcond]
    split
    · exact ⟨_, rfl, cellId_mem_claim cells _ (hrand 1).1, (hrand 1).2⟩
    · split
      · rename_i m hg
        exact ⟨m, rfl,
          cellId_mem_claim cells _ (findBestGreedyMove_valid _ _ _ m hg).1,
          (findBestGreedyMove_valid _ _ _ m hg).2⟩
      · exact ⟨_, rfl, cellId_mem_claim cells _ (hrand 1).1, (hrand 1).2⟩
  | hard =>
    simp only [getBestMove]
    rw [if_neg hcond]
    split
    · split
      · rename_i m hg
        exact ⟨m, rfl,
          cellId_mem_claim cells _ (findBestGreedyMove_valid _ _ _ m hg).1,
          (findBestGreedyMove_valid _ _ _ m hg).2⟩
      · exact ⟨_, rfl, cellId_mem_claim cells _ (hrand 0).1, (hrand 0).2⟩
    · rw [getMinimaxMove_eq]
      split
      · rename_i m hm
        exact ⟨m, rfl,
          cellId_mem_claim cells _ (minimaxRootFold_valid _ _ _ m hm).1,
          (minimaxRootFold_valid _ _ _ m hm).2⟩
      · exact ⟨_, rfl, cellId_mem_claim cells _ (hrand 0).1, (hrand 0).2⟩

/-- Witness for the C10 theorem: on the board holding only 5 in cell 0,
hard mode (with a fixed random source) proposes a move into an empty
cell using an unused number. -/
theorem getBestMove_valid_witness :
    ∃ m, getBestMove (partialBoard (fun i => if i = 0 then some 5 else none))
      .hard (fun _ => 0) = some m ∧
      (∃ c ∈ partialBoard (fun i => if i = 0 then some 5 else none),
        c.value = none ∧ c.id = m.cellId) ∧
      m.number ∈ getAvailableNumbers
        (partialBoard (fun i => if i = 0 then some 5 else none)) :=
  getBestMove_valid (partialBoard (fun i => if i = 0 then some 5 else none))
    .hard (fun _ => 0) (fun k => by norm_num) (by decide) (by decide)

end Stig
